import Mathlib

/-!
# PointSolver: iterative multi-resolution grid search for point-source image positions

The repository's scripts configure and invoke a `PointSolver` that, given a lens
mass model's ray-tracing map and a target source-plane coordinate, locates the
image-plane coordinates that ray-trace to (approximately) that target.  The
scripts construct the solver as `al.PointSolver(grid=grid, pixel_scale_precision=...)`
(see `scripts/group/modeling/start_here.py`, `scripts/plot/plotters/FitPointDatasetPlotter.py`,
`scripts/point_source/advanced/chaining/single_plane_to_double_plane.py`); the
solver's internals live in an external library, so the algorithm below is
modelled from the specification's design (iterative grid refinement with
candidate filtering, a logarithmic iteration cap, exclusion of non-finite
ray-traced coordinates, and proximity deduplication of the final candidates).

Rational numbers stand in for the floating-point angular values.  The rational
arithmetic operations are restored to their kernel-computable definitions so
that concrete solver runs can be settled by `decide`.
-/

set_option allowUnsafeReducibility true

attribute [local semireducible] Rat.add Rat.sub Rat.mul Rat.inv Rat.div Rat.neg

/-- A 2D angular coordinate `(y, x)` in arcseconds. -/
abbrev Coord : Type := ℚ × ℚ

/-- Absolute value on ℚ, written with an explicit comparison so that concrete
values reduce under `decide`.  Agrees with `|·|` (see `qabs_eq_abs`). -/
def qabs (a : ℚ) : ℚ :=
  if 0 ≤ a then a else -a

/-- Binary maximum on ℚ, written with an explicit comparison so that concrete
values reduce under `decide`.  Agrees with `max` (see `qmax_eq_max`). -/
def qmax (a b : ℚ) : ℚ :=
  if a ≤ b then b else a

/-- Chebyshev (L∞) distance between two coordinates, the natural cell-sized
metric for a square grid: a point is within one cell of another iff each
component differs by at most the cell scale. -/
def distInf (p q : Coord) : ℚ :=
  qmax (qabs (p.1 - q.1)) (qabs (p.2 - q.2))

/-- Modelled from the spec: a grid is "a finite ordered collection of 2D
coordinates (y, x) in angular units ... with a defined pixel scale".  The
uniform-lattice layout of `al.Grid2D.uniform` is not needed by the solver's
logic, which only consumes the ordered coordinates and the pixel scale. -/
structure Grid2D where
  points : List Coord
  pixelScale : ℚ

/-- Modelled from the spec: the "ray-tracing callable (opaque collaborator)"
mapping an image-plane coordinate to a source-plane coordinate.  `none` models
a non-finite (NaN/infinite) ray-traced coordinate, e.g. at a mass profile's
singular centre. -/
abbrev RayTrace : Type := Coord → Option Coord

/-- The identity mass model (no lensing): every image-plane coordinate
ray-traces to itself. -/
def idRayTrace : RayTrace := fun p => some p

/-- A mass model with a singular centre: the ray-traced coordinate is
non-finite (NaN/infinite, modelled as `none`) at the origin and the identity
elsewhere. -/
def singularRayTrace : RayTrace := fun p => if p = (0, 0) then none else some p

/-- Modelled from the spec: a coordinate is a candidate at scale `s` when its
ray-traced source-plane position is finite and lies within `s` of the target;
non-finite ray-traced coordinates are "excluded from candidacy before distance
comparisons". -/
def isCand (rt : RayTrace) (target : Coord) (s : ℚ) (p : Coord) : Bool :=
  match rt p with
  | none => false
  | some q => decide (distInf q target ≤ s)

/-- The candidate coordinates of a list at scale `s`: the filter implementing
step 2 of the spec's algorithm ("identify grid cells whose ray-traced image
straddles the target point"), with non-finite values excluded first. -/
def candidates (rt : RayTrace) (target : Coord) (s : ℚ) (pts : List Coord) :
    List Coord :=
  pts.filter (isCand rt target s)

/-- Modelled from the spec, step 3: "subdivide only the candidate cells into a
finer sub-grid (e.g., quadrants)".  The cell of scale `s` centred at `p` is
replaced by its four quadrant centres, each a cell of scale `s / 2`. -/
def subdivide (s : ℚ) (p : Coord) : List Coord :=
  [(p.1 - s / 4, p.2 - s / 4), (p.1 - s / 4, p.2 + s / 4),
   (p.1 + s / 4, p.2 - s / 4), (p.1 + s / 4, p.2 + s / 4)]

/-- Modelled from the spec: the refinement loop.  At scale `s` it keeps the
candidate coordinates, subdivides them, halves the scale and repeats; it stops
(and filters the survivors at the requested precision) once the scale is at or
below `pixel_scale_precision`, and the fuel argument caps the number of
refinement iterations "to guarantee termination even if floating-point effects
prevent exact convergence". -/
def refineLoop (rt : RayTrace) (target : Coord) (precision : ℚ) :
    ℕ → ℚ → List Coord → List Coord
  | 0, _, pts => candidates rt target precision pts
  | n + 1, s, pts =>
    if s ≤ precision then candidates rt target precision pts
    else
      refineLoop rt target precision n (s / 2)
        ((candidates rt target s pts).flatMap (subdivide s))

/-- The number of refinement iterations the loop actually performs (one per
subdivision step; the terminal filter is not an iteration). -/
def refineCount (rt : RayTrace) (target : Coord) (precision : ℚ) :
    ℕ → ℚ → List Coord → ℕ
  | 0, _, _ => 0
  | n + 1, s, pts =>
    if s ≤ precision then 0
    else
      refineCount rt target precision n (s / 2)
        ((candidates rt target s pts).flatMap (subdivide s)) + 1

/-- Modelled from the spec: "deduplication of adjacent overlapping candidates"
— keep a coordinate and drop every later coordinate within the precision
threshold of it.  The fuel argument (always instantiated with the list length,
which the inner filter never increases) makes the recursion structural. -/
def dedupeAux (precision : ℚ) : ℕ → List Coord → List Coord
  | 0, _ => []
  | _, [] => []
  | n + 1, p :: ps =>
    p :: dedupeAux precision n (ps.filter fun q => decide (precision < distInf p q))

/-- Deduplicate a candidate list by proximity below the precision threshold. -/
def dedupe (precision : ℚ) (l : List Coord) : List Coord :=
  dedupeAux precision l.length l

/-- The least number of halvings that brings `s` to or below `p`, computed with
enough fuel for the search to complete whenever `p > 0`. -/
def iterBoundGo (p : ℚ) : ℕ → ℚ → ℕ
  | 0, _ => 0
  | fuel + 1, s => if s ≤ p then 0 else iterBoundGo p fuel (s / 2) + 1

/-- Modelled from the spec: the iteration cap
`ceil(log2(initial_pixel_scale / pixel_scale_precision))` (clamped at zero when
the grid is already at or below the requested precision); the least `n` with
`pixelScale ≤ precision * 2 ^ n`.  `iterBound_eq_clog` identifies it with
`Int.clog 2 (pixelScale / precision)`. -/
def iterBound (pixelScale precision : ℚ) : ℕ :=
  iterBoundGo precision (pixelScale / precision).num.toNat pixelScale

/-- The error raised on invalid configuration. -/
inductive SolverError : Type
  | invalidPrecision
deriving DecidableEq

/-- Modelled from the spec: the solver's single query operation
`solve(source_plane_coordinate, pixel_scale_precision, grid)`.  A
non-positive precision "fails fast with a configuration error before any
ray-tracing is attempted"; otherwise the initial grid is refined down to the
precision scale and the surviving candidates, deduplicated by proximity, are
returned. -/
def solve (rt : RayTrace) (sourcePlaneCoordinate : Coord) (precision : ℚ)
    (grid : Grid2D) : Except SolverError (List Coord) :=
  if precision ≤ 0 then .error .invalidPrecision
  else
    .ok (dedupe precision
      (refineLoop rt sourcePlaneCoordinate precision
        (iterBound grid.pixelScale precision) grid.pixelScale grid.points))

/-- The candidate list the solver computes before proximity deduplication. -/
def solveRaw (rt : RayTrace) (sourcePlaneCoordinate : Coord) (precision : ℚ)
    (grid : Grid2D) : List Coord :=
  refineLoop rt sourcePlaneCoordinate precision
    (iterBound grid.pixelScale precision) grid.pixelScale grid.points

/-- The number of refinement iterations a `solve` call performs. -/
def solveIterations (rt : RayTrace) (sourcePlaneCoordinate : Coord)
    (precision : ℚ) (grid : Grid2D) : ℕ :=
  refineCount rt sourcePlaneCoordinate precision
    (iterBound grid.pixelScale precision) grid.pixelScale grid.points

/-- The solver object as the scripts construct it:
`al.PointSolver(grid=grid, pixel_scale_precision=0.025)` — the grid and the
precision are bound at construction time. -/
structure PointSolver where
  grid : Grid2D
  pixel_scale_precision : ℚ

/-- The free query operation, under a name visible from inside the
`PointSolver` namespace. -/
abbrev solveQuery : RayTrace → Coord → ℚ → Grid2D → Except SolverError (List Coord) :=
  solve

/-- The query operation as the solver object exposes it: the ray-tracing map
and the target source-plane coordinate are supplied per call, while the grid
and the precision are read from the instance. -/
def PointSolver.solve (s : PointSolver) (rt : RayTrace) (target : Coord) :
    Except SolverError (List Coord) :=
  solveQuery rt target s.pixel_scale_precision s.grid

/-- One step of a point-source model fit: evaluate the solver at the next
candidate model's target coordinate, accumulate the result, and hand the solver
on to the next evaluation. -/
def fitStep (rt : RayTrace)
    (acc : List (Except SolverError (List Coord)) × PointSolver) (t : Coord) :
    List (Except SolverError (List Coord)) × PointSolver :=
  (acc.1 ++ [acc.2.solve rt t], acc.2)

/-- Modelled from the spec: a model-fit search (`AnalysisPoint` handed to a
non-linear search) queries the shared solver once per candidate model; the
solver has "no shared mutable state between invocations" and "side effects:
none", so each fit threads the solver value through unchanged and returns it
for the next search in the chain. -/
def runFit (s : PointSolver) (rt : RayTrace) (targets : List Coord) :
    List (Except SolverError (List Coord)) × PointSolver :=
  targets.foldl (fitStep rt) ([], s)

instance {ε α : Type} [DecidableEq ε] [DecidableEq α] : DecidableEq (Except ε α) :=
  fun x y =>
    match x, y with
    | .error a, .error b =>
      if h : a = b then .isTrue (by rw [h])
      else .isFalse (fun he => h (Except.error.inj he))
    | .error _, .ok _ => .isFalse (fun he => Except.noConfusion he)
    | .ok _, .error _ => .isFalse (fun he => Except.noConfusion he)
    | .ok a, .ok b =>
      if h : a = b then .isTrue (by rw [h])
      else .isFalse (fun he => h (Except.ok.inj he))

/-! ## Basic facts about the distance and the candidate filter -/

theorem qabs_eq_abs (a : ℚ) : qabs a = |a| := by
  rw [qabs]
  split
  · exact (abs_of_nonneg (by assumption)).symm
  · exact (abs_of_neg (by linarith)).symm

theorem qmax_eq_max (a b : ℚ) : qmax a b = max a b := by
  rw [qmax, max_def]

theorem distInf_eq (p q : Coord) : distInf p q = max |p.1 - q.1| |p.2 - q.2| := by
  rw [distInf, qmax_eq_max, qabs_eq_abs, qabs_eq_abs]

theorem distInf_le_iff {p q : Coord} {r : ℚ} :
    distInf p q ≤ r ↔ |p.1 - q.1| ≤ r ∧ |p.2 - q.2| ≤ r := by
  rw [distInf_eq, max_le_iff]

theorem distInf_self (p : Coord) : distInf p p = 0 := by
  simp [distInf_eq]

theorem isCand_true_iff {rt : RayTrace} {t : Coord} {s : ℚ} {p : Coord} :
    isCand rt t s p = true ↔ ∃ q, rt p = some q ∧ distInf q t ≤ s := by
  cases h : rt p with
  | none => simp [isCand, h]
  | some q => simp [isCand, h]

theorem mem_candidates {rt : RayTrace} {t : Coord} {s : ℚ} {pts : List Coord}
    {p : Coord} :
    p ∈ candidates rt t s pts ↔ p ∈ pts ∧ isCand rt t s p = true := by
  simp [candidates, List.mem_filter]

/-! ## The refinement loop: membership, emptiness, fuel, congruence -/

theorem refineLoop_mem {rt : RayTrace} {t : Coord} {prec : ℚ} :
    ∀ (n : ℕ) (s : ℚ) (pts : List Coord) (x : Coord),
      x ∈ refineLoop rt t prec n s pts → isCand rt t prec x = true
  | 0, _, _, _, hx => (mem_candidates.mp hx).2
  | n + 1, s, pts, x, hx => by
    simp only [refineLoop] at hx
    split at hx
    · exact (mem_candidates.mp hx).2
    · exact refineLoop_mem n (s / 2) _ x hx

theorem refineLoop_nil {rt : RayTrace} {t : Coord} {prec : ℚ} :
    ∀ (n : ℕ) (s : ℚ), refineLoop rt t prec n s [] = []
  | 0, _ => rfl
  | n + 1, s => by
    simp only [refineLoop]
    split
    · rfl
    · exact refineLoop_nil n (s / 2)

theorem refineCount_le {rt : RayTrace} {t : Coord} {prec : ℚ} :
    ∀ (n : ℕ) (s : ℚ) (pts : List Coord), refineCount rt t prec n s pts ≤ n
  | 0, _, _ => Nat.le_refl 0
  | n + 1, s, pts => by
    simp only [refineCount]
    split
    · exact Nat.zero_le _
    · exact Nat.succ_le_succ (refineCount_le n (s / 2) _)

theorem refineLoop_fuel_stable {rt : RayTrace} {t : Coord} {prec : ℚ} :
    ∀ (n : ℕ) (s : ℚ) (pts : List Coord), s ≤ prec * 2 ^ n →
      ∀ m : ℕ, n ≤ m → refineLoop rt t prec m s pts = refineLoop rt t prec n s pts
  | 0, s, pts, hs, m, _ => by
    cases m with
    | zero => rfl
    | succ m =>
      simp only [refineLoop]
      rw [if_pos (by simpa using hs)]
  | n + 1, s, pts, hs, m, hm => by
    cases m with
    | zero => exact absurd hm (by omega)
    | succ m =>
      simp only [refineLoop]
      split
      · rfl
      · refine refineLoop_fuel_stable n (s / 2) _ ?_ m (Nat.le_of_succ_le_succ hm)
        rw [pow_succ] at hs
        linarith

theorem candidates_congr {rt₁ rt₂ : RayTrace} (h : ∀ p, rt₁ p = rt₂ p)
    (t : Coord) (s : ℚ) (pts : List Coord) :
    candidates rt₁ t s pts = candidates rt₂ t s pts := by
  unfold candidates
  congr 1
  funext p
  unfold isCand
  rw [h p]

theorem refineLoop_congr {rt₁ rt₂ : RayTrace} (h : ∀ p, rt₁ p = rt₂ p)
    (t : Coord) (prec : ℚ) :
    ∀ (n : ℕ) (s : ℚ) (pts : List Coord),
      refineLoop rt₁ t prec n s pts = refineLoop rt₂ t prec n s pts
  | 0, s, pts => candidates_congr h t prec pts
  | n + 1, s, pts => by
    simp only [refineLoop]
    split
    · exact candidates_congr h t prec pts
    · rw [candidates_congr h t s pts]
      exact refineLoop_congr h t prec n (s / 2) _

/-! ## Deduplication: membership and non-emptiness -/

theorem dedupeAux_subset {prec : ℚ} :
    ∀ (n : ℕ) (l : List Coord) (x : Coord), x ∈ dedupeAux prec n l → x ∈ l
  | 0, l, x, hx => by simp [dedupeAux] at hx
  | n + 1, [], x, hx => by simp [dedupeAux] at hx
  | n + 1, p :: ps, x, hx => by
    simp only [dedupeAux, List.mem_cons] at hx
    rcases hx with h | h
    · exact h ▸ List.mem_cons_self p ps
    · exact List.mem_cons_of_mem p (List.mem_of_mem_filter (dedupeAux_subset n _ x h))

theorem dedupe_subset {prec : ℚ} {l : List Coord} {x : Coord}
    (hx : x ∈ dedupe prec l) : x ∈ l :=
  dedupeAux_subset _ _ _ hx

theorem dedupe_cons_ne_nil (prec : ℚ) (p : Coord) (ps : List Coord) :
    dedupe prec (p :: ps) ≠ [] := by
  simp [dedupe, dedupeAux]

/-! ## The iteration bound: sufficiency, minimality, and the log2 ceiling -/

theorem iterBoundGo_le {p : ℚ} (hp : 0 < p) :
    ∀ (fuel : ℕ) (s : ℚ) (m : ℕ), s ≤ p * 2 ^ m → iterBoundGo p fuel s ≤ m
  | 0, _, m, _ => Nat.zero_le m
  | fuel + 1, s, m, h => by
    rw [iterBoundGo]
    split
    · exact Nat.zero_le m
    · rename_i hns
      cases m with
      | zero => exact absurd (by simpa using h) hns
      | succ m =>
        refine Nat.succ_le_succ (iterBoundGo_le hp fuel (s / 2) m ?_)
        rw [pow_succ] at h
        linarith

theorem iterBoundGo_spec {p : ℚ} :
    ∀ (fuel : ℕ) (s : ℚ), s ≤ p * 2 ^ fuel → s ≤ p * 2 ^ iterBoundGo p fuel s
  | 0, _, h => h
  | fuel + 1, s, h => by
    rw [iterBoundGo]
    split
    · rename_i hsp
      simpa using hsp
    · have h2 : s / 2 ≤ p * 2 ^ fuel := by
        rw [pow_succ] at h
        linarith
      have h3 := iterBoundGo_spec fuel (s / 2) h2
      have h4 : p * 2 ^ (iterBoundGo p fuel (s / 2) + 1) =
          2 * (p * 2 ^ iterBoundGo p fuel (s / 2)) := by ring
      rw [h4]
      linarith

theorem self_le_two_pow_num_toNat (r : ℚ) : r ≤ 2 ^ r.num.toNat := by
  rcases le_or_lt r 0 with h | h
  · exact h.trans (by positivity)
  · have hnum : 0 < r.num := Rat.num_pos.mpr h
    have hr : r ≤ (r.num : ℚ) := by
      conv_lhs => rw [← Rat.num_div_den r]
      apply div_le_self (by exact_mod_cast hnum.le)
      exact_mod_cast r.den_pos
    refine hr.trans ?_
    have hcast : (r.num.toNat : ℚ) = (r.num : ℚ) := by
      exact_mod_cast Int.toNat_of_nonneg hnum.le
    rw [← hcast]
    exact_mod_cast (Nat.lt_two_pow r.num.toNat).le

theorem iterBound_spec {ps prec : ℚ} (hp : 0 < prec) :
    ps ≤ prec * 2 ^ iterBound ps prec := by
  apply iterBoundGo_spec
  have h := self_le_two_pow_num_toNat (ps / prec)
  rw [div_le_iff₀ hp] at h
  linarith [h]

theorem iterBound_min {ps prec : ℚ} (hp : 0 < prec) {m : ℕ}
    (h : ps ≤ prec * 2 ^ m) : iterBound ps prec ≤ m :=
  iterBoundGo_le hp _ ps m h

theorem iterBound_eq_clog {ps prec : ℚ} (hp : 0 < prec) :
    iterBound ps prec = (Int.clog 2 (ps / prec)).toNat := by
  apply le_antisymm
  · apply iterBound_min hp
    have h1 : ps / prec ≤ (2 : ℚ) ^ Int.clog 2 (ps / prec) :=
      Int.self_le_zpow_clog (by norm_num) _
    have h2 : ((2 : ℚ)) ^ Int.clog 2 (ps / prec) ≤
        (2 : ℚ) ^ ((Int.clog 2 (ps / prec)).toNat : ℤ) := by
      apply zpow_le_zpow_right₀ _ (Int.self_le_toNat _)
      norm_num
    rw [zpow_natCast] at h2
    have h3 : ps / prec ≤ (2 : ℚ) ^ (Int.clog 2 (ps / prec)).toNat := h1.trans h2
    rw [div_le_iff₀ hp] at h3
    linarith
  · rcases le_or_lt (ps / prec) 0 with h | h
    · rw [Int.clog_of_right_le_zero 2 h]
      simp
    · have h1 : ps / prec ≤ (2 : ℚ) ^ ((iterBound ps prec : ℤ)) := by
        rw [zpow_natCast, div_le_iff₀ hp]
        linarith [@iterBound_spec ps prec hp]
      exact Int.toNat_le.mpr ((Int.le_zpow_iff_clog_le (by norm_num) h).mp h1)

/-! ## Monotonicity of the refinement under grid enlargement -/

theorem sublist_flatMap {α β : Type} (f : α → List β) :
    ∀ {l₁ l₂ : List α}, List.Sublist l₁ l₂ →
      List.Sublist (l₁.flatMap f) (l₂.flatMap f) := by
  intro l₁ l₂ h
  induction h with
  | slnil => exact List.Sublist.refl _
  | cons a h ih =>
    rename_i l₁' l₂'
    simpa using ih.trans (List.sublist_append_right (f a) (l₂'.flatMap f))
  | cons₂ a h ih =>
    simpa using ih.append_left (f a)

theorem refineLoop_sublist {rt : RayTrace} {t : Coord} {prec : ℚ} :
    ∀ (n : ℕ) (s : ℚ) {pts₁ pts₂ : List Coord}, List.Sublist pts₁ pts₂ →
      List.Sublist (refineLoop rt t prec n s pts₁) (refineLoop rt t prec n s pts₂)
  | 0, _, _, _, h => h.filter _
  | n + 1, s, pts₁, pts₂, h => by
    simp only [refineLoop]
    split
    · exact h.filter _
    · exact refineLoop_sublist n (s / 2) (sublist_flatMap _ (h.filter _))

/-! ## Non-emptiness of the identity-map search -/

theorem subdivide_best {s : ℚ} {q p : Coord}
    (hq : distInf q p ≤ s / 2) :
    ∃ c ∈ subdivide s q, distInf c p ≤ s / 4 := by
  obtain ⟨h1, h2⟩ := distInf_le_iff.mp hq
  rw [abs_le] at h1 h2
  refine ⟨((if p.1 ≤ q.1 then q.1 - s / 4 else q.1 + s / 4),
    (if p.2 ≤ q.2 then q.2 - s / 4 else q.2 + s / 4)), ?_, ?_⟩
  · simp only [subdivide, List.mem_cons, List.mem_singleton]
    rcases le_or_lt p.1 q.1 with hy | hy <;> rcases le_or_lt p.2 q.2 with hx | hx
    · rw [if_pos hy, if_pos hx]; tauto
    · rw [if_pos hy, if_neg (not_le.mpr hx)]; tauto
    · rw [if_neg (not_le.mpr hy), if_pos hx]; tauto
    · rw [if_neg (not_le.mpr hy), if_neg (not_le.mpr hx)]; tauto
  · rw [distInf_le_iff]
    constructor
    · rw [abs_le]
      rcases le_or_lt p.1 q.1 with hy | hy
      · rw [if_pos hy]
        constructor <;> simp only [] <;> linarith
      · rw [if_neg (not_le.mpr hy)]
        constructor <;> simp only [] <;> linarith
    · rw [abs_le]
      rcases le_or_lt p.2 q.2 with hx | hx
      · rw [if_pos hx]
        constructor <;> simp only [] <;> linarith
      · rw [if_neg (not_le.mpr hx)]
        constructor <;> simp only [] <;> linarith

theorem refineLoop_id_ne_nil {p : Coord} {prec : ℚ} :
    ∀ (n : ℕ) (s : ℚ) (pts : List Coord), 0 < s → s ≤ prec * 2 ^ n →
      (∃ q ∈ pts, distInf q p ≤ s / 2) →
      refineLoop idRayTrace p prec n s pts ≠ []
  | 0, s, pts, hs, hb, ⟨q, hq, hd⟩ => by
    have hcand : isCand idRayTrace p prec q = true := by
      rw [isCand_true_iff]
      refine ⟨q, rfl, hd.trans ?_⟩
      have : s ≤ prec := by simpa using hb
      linarith
    exact List.ne_nil_of_mem (mem_candidates.mpr ⟨hq, hcand⟩)
  | n + 1, s, pts, hs, hb, ⟨q, hq, hd⟩ => by
    simp only [refineLoop]
    split
    · rename_i hsp
      have hcand : isCand idRayTrace p prec q = true := by
        rw [isCand_true_iff]
        exact ⟨q, rfl, hd.trans (by linarith)⟩
      exact List.ne_nil_of_mem (mem_candidates.mpr ⟨hq, hcand⟩)
    · rename_i hsp
      obtain ⟨c, hc, hcd⟩ := subdivide_best hd
      have hqcand : q ∈ candidates idRayTrace p s pts := by
        refine mem_candidates.mpr ⟨hq, ?_⟩
        rw [isCand_true_iff]
        exact ⟨q, rfl, hd.trans (by linarith)⟩
      refine refineLoop_id_ne_nil n (s / 2) _ (by linarith) ?_ ?_
      · rw [pow_succ] at hb
        linarith
      · refine ⟨c, List.mem_flatMap.mpr ⟨q, hqcand, hc⟩, ?_⟩
        calc distInf c p ≤ s / 4 := hcd
        _ = s / 2 / 2 := by ring

/-! ## The claims -/

/-- C1: every coordinate returned by `solve`, mapped through the mass model's
ray-tracing function, lies within `pixel_scale_precision` (in angular units)
of the target source-plane point. -/
theorem solve_precision_contract (rt : RayTrace) (c : Coord) (prec : ℚ)
    (g : Grid2D) (l : List Coord) (h : solve rt c prec g = .ok l) :
    ∀ p ∈ l, ∃ q, rt p = some q ∧ distInf q c ≤ prec := by
  intro p hp
  rw [solve] at h
  split at h
  · exact Except.noConfusion h
  · have hl : l = dedupe prec (refineLoop rt c prec
        (iterBound g.pixelScale prec) g.pixelScale g.points) :=
      (Except.ok.inj h).symm
    subst hl
    exact isCand_true_iff.mp (refineLoop_mem _ _ _ p (dedupe_subset hp))

theorem solve_precision_contract_witness :
    ∃ q, idRayTrace ((0 : ℚ), (0 : ℚ)) = some q ∧ distInf q (0, 0) ≤ 1 :=
  solve_precision_contract idRayTrace (0, 0) 1 ⟨[((0 : ℚ), (0 : ℚ))], 1⟩
    [(0, 0)] (by decide) (0, 0) (by decide)

/-- C2: `solve` terminates within the iteration cap: for every mass model the
number of refinement iterations performed is at most
`⌈log₂(initial_pixel_scale / pixel_scale_precision)⌉`, and granting the loop
any fuel beyond `iterBound` cannot change the result (the cap loses nothing). -/
theorem solve_iteration_bound (rt : RayTrace) (c : Coord) (prec : ℚ)
    (g : Grid2D) (hp : 0 < prec) :
    solveIterations rt c prec g ≤ (Int.clog 2 (g.pixelScale / prec)).toNat ∧
      ∀ m : ℕ, iterBound g.pixelScale prec ≤ m →
        refineLoop rt c prec m g.pixelScale g.points = solveRaw rt c prec g := by
  constructor
  · rw [← iterBound_eq_clog hp]
    exact refineCount_le _ _ _
  · intro m hm
    exact refineLoop_fuel_stable _ _ _ (iterBound_spec hp) m hm

theorem solve_iteration_bound_witness :
    solveIterations idRayTrace (0, 0) 1 ⟨[((0 : ℚ), (0 : ℚ))], 2⟩ ≤
        (Int.clog 2 ((2 : ℚ) / 1)).toNat ∧
      refineLoop idRayTrace (0, 0) 1 5 2 [((0 : ℚ), (0 : ℚ))] =
        solveRaw idRayTrace (0, 0) 1 ⟨[((0 : ℚ), (0 : ℚ))], 2⟩ :=
  ⟨(solve_iteration_bound idRayTrace (0, 0) 1 ⟨[(0, 0)], 2⟩ (by norm_num)).1,
   (solve_iteration_bound idRayTrace (0, 0) 1 ⟨[(0, 0)], 2⟩ (by norm_num)).2
     5 (by decide)⟩

/-- C3, counterexample: two solver instances receiving identical `solve` call
arguments (the same ray-tracing map and the same target coordinate) return
different results, so the precision and the grid are not parameters of the
solve call itself — they are constructor state, exactly as the scripts'
`al.PointSolver(grid=..., pixel_scale_precision=...)` builds them. -/
theorem solve_signature_cex :
    PointSolver.solve ⟨⟨[((0 : ℚ), (0 : ℚ))], 1⟩, 1⟩ idRayTrace (0, 0) ≠
      PointSolver.solve ⟨⟨[], 1⟩, 1⟩ idRayTrace (0, 0) := by
  decide

/-- C3 amended: the solver exposes a single query operation whose per-call
parameters are the ray-tracing map and the source-plane coordinate; the grid
and the pixel-scale precision are bound at construction and read from the
instance, and together with the call arguments they fully determine the
result: the method agrees with the four-argument query applied to the stored
configuration, and instances with equal configuration answer equally. -/
theorem solve_signature (s₁ s₂ : PointSolver) (rt : RayTrace) (c : Coord)
    (hg : s₁.grid = s₂.grid)
    (hprec : s₁.pixel_scale_precision = s₂.pixel_scale_precision) :
    s₁.solve rt c = solve rt c s₁.pixel_scale_precision s₁.grid ∧
      s₁.solve rt c = s₂.solve rt c := by
  constructor
  · rfl
  · rw [PointSolver.solve, PointSolver.solve, hg, hprec]

theorem solve_signature_witness :
    PointSolver.solve ⟨⟨[((0 : ℚ), (0 : ℚ))], 1⟩, 1⟩ idRayTrace (0, 0) =
        solve idRayTrace (0, 0) (1 : ℚ) ⟨[((0 : ℚ), (0 : ℚ))], 1⟩ ∧
      PointSolver.solve ⟨⟨[((0 : ℚ), (0 : ℚ))], 1⟩, 1⟩ idRayTrace (0, 0) =
        PointSolver.solve ⟨⟨[((0 : ℚ), (0 : ℚ))], 1⟩, 1⟩ idRayTrace (0, 0) :=
  solve_signature ⟨⟨[((0 : ℚ), (0 : ℚ))], 1⟩, 1⟩ ⟨⟨[((0 : ℚ), (0 : ℚ))], 1⟩, 1⟩
    idRayTrace (0, 0) rfl rfl

/-- C4: a non-positive precision fails fast with the configuration error —
uniformly in the ray-tracing map, since no ray-tracing is attempted — and a
positive precision never raises it. -/
theorem solve_invalid_precision (rt₁ rt₂ : RayTrace) (c : Coord) (prec : ℚ)
    (g : Grid2D) :
    (prec ≤ 0 → solve rt₁ c prec g = .error .invalidPrecision ∧
      solve rt₁ c prec g = solve rt₂ c prec g) ∧
    (0 < prec → ∃ l, solve rt₁ c prec g = .ok l) := by
  constructor
  · intro h
    have e₁ : solve rt₁ c prec g = .error .invalidPrecision := by
      rw [solve, if_pos h]
    have e₂ : solve rt₂ c prec g = .error .invalidPrecision := by
      rw [solve, if_pos h]
    exact ⟨e₁, e₁.trans e₂.symm⟩
  · intro h
    rw [solve, if_neg (not_le.mpr h)]
    exact ⟨_, rfl⟩

theorem solve_invalid_precision_witness :
    (solve idRayTrace (0, 0) 0 ⟨[((0 : ℚ), (0 : ℚ))], 1⟩ =
        .error .invalidPrecision) ∧
      ∃ l, solve idRayTrace (0, 0) 1 ⟨[((0 : ℚ), (0 : ℚ))], 1⟩ = .ok l :=
  ⟨((solve_invalid_precision idRayTrace idRayTrace (0, 0) 0
      ⟨[(0, 0)], 1⟩).1 (by norm_num)).1,
   (solve_invalid_precision idRayTrace idRayTrace (0, 0) 1
      ⟨[(0, 0)], 1⟩).2 (by norm_num)⟩

/-- C5: for every mass model — including one whose ray-traced coordinates are
non-finite at some grid points — a positive-precision `solve` returns a result
(it never raises), no returned coordinate has a non-finite ray-traced
position, and non-finite coordinates are excluded from candidate selection at
every refinement scale, before any distance comparison. -/
theorem solve_nonfinite_excluded (rt : RayTrace) (c : Coord) (prec : ℚ)
    (g : Grid2D) (hp : 0 < prec) :
    (∃ l, solve rt c prec g = .ok l ∧ ∀ p ∈ l, rt p ≠ none) ∧
      ∀ (s : ℚ) (pts : List Coord) (p : Coord),
        p ∈ candidates rt c s pts → rt p ≠ none := by
  have hex : ∀ (s : ℚ) (pts : List Coord) (p : Coord),
      p ∈ candidates rt c s pts → rt p ≠ none := by
    intro s pts p hmem hnone
    obtain ⟨q, hq, _⟩ := isCand_true_iff.mp (mem_candidates.mp hmem).2
    rw [hnone] at hq
    exact Option.noConfusion hq
  refine ⟨⟨dedupe prec (solveRaw rt c prec g), ?_, ?_⟩, hex⟩
  · rw [solve, if_neg (not_le.mpr hp)]
    rfl
  · intro p hpmem hnone
    obtain ⟨q, hq, _⟩ :=
      isCand_true_iff.mp (refineLoop_mem _ _ _ p (dedupe_subset hpmem))
    rw [hnone] at hq
    exact Option.noConfusion hq

theorem solve_nonfinite_excluded_witness :
    (∃ l, solve singularRayTrace (0, 0) 1 ⟨[((0 : ℚ), (0 : ℚ)), (1, 0)], 1⟩ =
        .ok l ∧ ∀ p ∈ l, singularRayTrace p ≠ none) ∧
      ∀ (s : ℚ) (pts : List Coord) (p : Coord),
        p ∈ candidates singularRayTrace (0, 0) s pts →
          singularRayTrace p ≠ none :=
  solve_nonfinite_excluded singularRayTrace (0, 0) 1
    ⟨[((0 : ℚ), (0 : ℚ)), (1, 0)], 1⟩ (by norm_num)

/-- C6: when every grid point's ray-traced position is farther from the target
than the initial pixel scale — the target lies outside the mapped range of the
initial grid — `solve` returns the empty sequence as a legitimate `.ok`
result, not an error. -/
theorem solve_out_of_range_empty (rt : RayTrace) (c : Coord) (prec : ℚ)
    (g : Grid2D) (hp : 0 < prec) (hps : prec ≤ g.pixelScale)
    (hout : ∀ p ∈ g.points, ∀ q, rt p = some q → g.pixelScale < distInf q c) :
    solve rt c prec g = .ok [] := by
  have hcand : ∀ s, s ≤ g.pixelScale → candidates rt c s g.points = [] := by
    intro s hs
    rw [candidates, List.filter_eq_nil_iff]
    intro p hpmem hc
    obtain ⟨q, hq, hd⟩ := isCand_true_iff.mp hc
    have := hout p hpmem q hq
    linarith
  have hloop : refineLoop rt c prec (iterBound g.pixelScale prec)
      g.pixelScale g.points = [] := by
    cases hfuel : iterBound g.pixelScale prec with
    | zero => exact hcand prec hps
    | succ n =>
      simp only [refineLoop]
      split
      · exact hcand prec hps
      · rw [hcand g.pixelScale (le_refl _)]
        exact refineLoop_nil n _
  rw [solve, if_neg (not_le.mpr hp), hloop]
  rfl

theorem solve_out_of_range_empty_witness :
    solve idRayTrace (10, 10) 1 ⟨[((0 : ℚ), (0 : ℚ))], 1⟩ = .ok [] :=
  solve_out_of_range_empty idRayTrace (10, 10) 1 ⟨[((0 : ℚ), (0 : ℚ))], 1⟩
    (by norm_num) (by norm_num)
    (by
      intro p hp q hq
      simp only [List.mem_singleton] at hp
      subst hp
      cases hq
      decide)

/-- C7, counterexample: with the identity mass model, precision `1`, and a
grid that contains the target point `(0, 0)`, `solve` returns two coordinates
rather than exactly one — distinct survivors farther apart than the
deduplication threshold both remain. -/
theorem identity_unique_image_cex :
    (((0 : ℚ), (0 : ℚ)) ∈
        (⟨[((-1 : ℚ), (0 : ℚ)), (1, 0), (0, 0)], 1⟩ : Grid2D).points) ∧
      solve idRayTrace (0, 0) 1 ⟨[((-1 : ℚ), (0 : ℚ)), (1, 0), (0, 0)], 1⟩ =
        .ok [(-1, 0), (1, 0)] ∧
      [((-1 : ℚ), (0 : ℚ)), ((1 : ℚ), (0 : ℚ))].length ≠ 1 := by
  decide

/-- C7 amended: with the identity mass model (no lensing), a positive
precision, a positive initial pixel scale and an initial grid containing the
target `p`, `solve` returns a non-empty sequence all of whose coordinates
equal `p` to within the precision (more than one survivor can be returned when
survivors sit farther apart than the deduplication threshold). -/
theorem identity_images (p : Coord) (prec : ℚ) (g : Grid2D)
    (hp : 0 < prec) (hg : 0 < g.pixelScale) (hmem : p ∈ g.points) :
    ∃ l, solve idRayTrace p prec g = .ok l ∧ l ≠ [] ∧
      ∀ q ∈ l, distInf q p ≤ prec := by
  refine ⟨dedupe prec (solveRaw idRayTrace p prec g), ?_, ?_, ?_⟩
  · rw [solve, if_neg (not_le.mpr hp)]
    rfl
  · have hne : solveRaw idRayTrace p prec g ≠ [] := by
      apply refineLoop_id_ne_nil _ _ _ hg (iterBound_spec hp)
      exact ⟨p, hmem, by rw [distInf_self]; linarith⟩
    cases hl : solveRaw idRayTrace p prec g with
    | nil => exact absurd hl hne
    | cons a as => exact dedupe_cons_ne_nil prec a as
  · intro q hq
    obtain ⟨q', hq', hd⟩ :=
      isCand_true_iff.mp (refineLoop_mem _ _ _ q (dedupe_subset hq))
    cases hq'
    exact hd

theorem identity_images_witness :
    ∃ l, solve idRayTrace (0, 0) 1 ⟨[((0 : ℚ), (0 : ℚ))], 1⟩ = .ok l ∧
      l ≠ [] ∧ ∀ q ∈ l, distInf q (0, 0) ≤ 1 :=
  identity_images (0, 0) 1 ⟨[(0, 0)], 1⟩ (by norm_num) (by norm_num) (by decide)

/-- C8, counterexample: refining the initial grid — halving the pixel scale
while keeping (a superset of) the same points over the same field of view —
decreases the number of returned images from two to one: the finer run's
survivors merge under proximity deduplication. -/
theorem resolution_monotonicity_cex :
    solve idRayTrace (0, 0) 1 ⟨[((-1 : ℚ), (0 : ℚ)), (1, 0)], 1⟩ =
        .ok [(-1, 0), (1, 0)] ∧
      solve idRayTrace (0, 0) 1 ⟨[((0 : ℚ), (0 : ℚ)), (-1, 0), (1, 0)], 1 / 2⟩ =
        .ok [(0, 0)] ∧
      ((1 : ℚ) / 2 < 1) := by
  decide

/-- C8 amended: monotonicity holds for the refinement search itself, before
proximity deduplication: when the finer grid retains the coarser grid's points
(as a sublist) at the same pixel scale, the coarser run's pre-deduplication
candidates form a sublist of the finer run's, so their number never decreases.
The returned, deduplicated image count can decrease under refinement, as the
counterexample shows. -/
theorem resolution_monotonicity (rt : RayTrace) (c : Coord) (prec : ℚ)
    (g₁ g₂ : Grid2D) (hs : g₁.pixelScale = g₂.pixelScale)
    (hsub : List.Sublist g₁.points g₂.points) :
    List.Sublist (solveRaw rt c prec g₁) (solveRaw rt c prec g₂) ∧
      (solveRaw rt c prec g₁).length ≤ (solveRaw rt c prec g₂).length := by
  have h : List.Sublist (solveRaw rt c prec g₁) (solveRaw rt c prec g₂) := by
    simp only [solveRaw]
    rw [hs]
    exact refineLoop_sublist _ _ hsub
  exact ⟨h, h.length_le⟩

theorem resolution_monotonicity_witness :
    List.Sublist
        (solveRaw idRayTrace (0, 0) 1 ⟨[((0 : ℚ), (0 : ℚ))], 1⟩)
        (solveRaw idRayTrace (0, 0) 1 ⟨[((0 : ℚ), (0 : ℚ)), (5, 5)], 1⟩) ∧
      (solveRaw idRayTrace (0, 0) 1 ⟨[((0 : ℚ), (0 : ℚ))], 1⟩).length ≤
        (solveRaw idRayTrace (0, 0) 1 ⟨[((0 : ℚ), (0 : ℚ)), (5, 5)], 1⟩).length :=
  resolution_monotonicity idRayTrace (0, 0) 1 ⟨[((0 : ℚ), (0 : ℚ))], 1⟩
    ⟨[((0 : ℚ), (0 : ℚ)), (5, 5)], 1⟩ rfl
    (List.Sublist.cons₂ _ (List.nil_sublist _))

/-- C9: `solve` is deterministic — its result is a function of the extension
of the (pure) ray-tracing callable together with the target, precision and
grid, so two calls with identical inputs return identical sequences, element
for element and in the same order. -/
theorem solve_deterministic (rt₁ rt₂ : RayTrace) (c : Coord) (prec : ℚ)
    (g : Grid2D) (h : ∀ p, rt₁ p = rt₂ p) :
    solve rt₁ c prec g = solve rt₂ c prec g := by
  simp only [solve]
  split
  · rfl
  · rw [refineLoop_congr h c prec _ _ _]

theorem solve_deterministic_witness :
    solve idRayTrace (0, 0) 1 ⟨[((0 : ℚ), (0 : ℚ))], 1⟩ =
      solve (fun p => some (p.1 + 0, p.2)) (0, 0) 1 ⟨[((0 : ℚ), (0 : ℚ))], 1⟩ :=
  solve_deterministic idRayTrace (fun p => some (p.1 + 0, p.2)) (0, 0) 1
    ⟨[(0, 0)], 1⟩ (by intro p; simp [idRayTrace])

/-- The solver component of a fold-based fit run is the solver it started
with: evaluating models never writes to the solver. -/
theorem runFit_state {rt : RayTrace} :
    ∀ (ts : List Coord) (acc : List (Except SolverError (List Coord)) × PointSolver),
      (ts.foldl (fitStep rt) acc).2 = acc.2
  | [], _ => rfl
  | t :: ts, acc => by
    rw [List.foldl_cons]
    exact runFit_state ts (fitStep rt acc t)

/-- C10: a `PointSolver` constructed once can be shared across sequential
model-fit searches: a fit returns the solver with its grid and precision
unchanged, and a second fit run with the solver coming out of the first is
identical to a second fit run with the original solver. -/
theorem solver_shared_across_fits (s : PointSolver) (rt₁ rt₂ : RayTrace)
    (ts₁ ts₂ : List Coord) :
    (runFit s rt₁ ts₁).2 = s ∧
      ((runFit s rt₁ ts₁).2.grid = s.grid ∧
        (runFit s rt₁ ts₁).2.pixel_scale_precision = s.pixel_scale_precision) ∧
      runFit ((runFit s rt₁ ts₁).2) rt₂ ts₂ = runFit s rt₂ ts₂ := by
  have h : (runFit s rt₁ ts₁).2 = s := runFit_state ts₁ ([], s)
  exact ⟨h, ⟨by rw [h], by rw [h]⟩, by rw [h]⟩
